import Mathlib

/-!
Verification of the zk-fee-profile sampler (src/zkfeeapp.py).

Shallow embedding conventions:
* Python `int` wei amounts become `ℤ` (unbounded, as in Python).
* Python `float` Gwei values become `ℚ`: every value the program produces is
  `wei / 10^9`, which is exact in `ℚ`; Python's `round` (banker's rounding,
  round-half-to-even) is modelled explicitly by `roundHalfEven`.
* Python `sorted` becomes `List.insertionSort (· ≤ ·)`: over a linear order the
  sorted permutation of a list is unique, so any sorting algorithm yields the
  same list as CPython's timsort.
* The web3 gateway becomes a `Gateway` structure; a block fetch that can fail
  over RPC is `getBlock : ℕ → Option Block`, and `analyze_fees` returns
  `Except FetchError _` (the Python code lets the exception propagate).
* Wall-clock fields (`timingSec`, `generatedAtUtc`) are not modelled: they are
  real-time observations with no algorithmic content.
-/

namespace ZkFee

/-- A transaction as exposed by the gateway: `type` (integer tag, 0 = legacy),
`gasPrice`, `maxPriorityFeePerGas`, `maxFeePerGas`, all integer wei amounts
defaulting to 0 when absent (the `int(tx.get(..., 0) or 0)` normalisation in
`sample_block_fees`). -/
structure Tx where
  type : ℤ
  gasPrice : ℤ
  maxPriorityFeePerGas : ℤ
  maxFeePerGas : ℤ
deriving DecidableEq, Repr

/-- A block as returned by `w3.eth.get_block`: number, `baseFeePerGas`
(0 if absent), timestamp, and the ordered transaction list. -/
structure Block where
  number : ℕ
  baseFeePerGas : ℤ
  timestamp : ℤ
  transactions : List Tx
deriving DecidableEq, Repr

/-- The node gateway: `w3.eth.chain_id`, `w3.eth.block_number`, and
`w3.eth.get_block` (`none` models an RPC failure raising an exception). -/
structure Gateway where
  chainId : ℕ
  latestBlockNumber : ℕ
  getBlock : ℕ → Option Block

/-- The exception raised when fetching block `blockNumber` fails mid-walk. -/
structure FetchError where
  blockNumber : ℕ
deriving DecidableEq, Repr

/-- The `{p50, p95, min, max, count}` dictionary built by `stats_bucket`. -/
structure StatBucket where
  p50 : ℚ
  p95 : ℚ
  min : ℚ
  max : ℚ
  count : ℕ
deriving DecidableEq, Repr

/-- The result dictionary of `analyze_fees` (without the wall-clock
`timingSec` field). -/
structure FeeProfileResult where
  chainId : ℕ
  network : String
  headBlock : ℕ
  oldestBlock : ℕ
  blockSpan : ℕ
  sampledBlocks : ℕ
  step : ℕ
  avgBlockTimeSec : ℚ
  baseFeeGwei : StatBucket
  effectivePriceGwei : StatBucket
  tipGweiApprox : StatBucket
deriving DecidableEq, Repr

/-- The module-level `NETWORKS` table together with the
`NETWORKS.get(cid, f"Unknown (chain ID {cid})")` lookup of `network_name`. -/
def network_name (cid : ℕ) : String :=
  if cid = 1 then "Ethereum Mainnet"
  else if cid = 11155111 then "Sepolia Testnet"
  else if cid = 10 then "Optimism"
  else if cid = 137 then "Polygon"
  else if cid = 42161 then "Arbitrum One"
  else if cid = 8453 then "Base"
  else if cid = 43114 then "Avalanche C-Chain"
  else "Unknown (chain ID " ++ toString cid ++ ")"

/-- Python's `round(x)` on an exact value: round to the nearest integer,
ties to the even integer (banker's rounding, CPython's behaviour). -/
def roundHalfEven (x : ℚ) : ℤ :=
  if x - ⌊x⌋ < 1/2 then ⌊x⌋
  else if 1/2 < x - ⌊x⌋ then ⌊x⌋ + 1
  else if ⌊x⌋ % 2 = 0 then ⌊x⌋ else ⌊x⌋ + 1

/-- Python's `round(x, 4)`. -/
def round4 (x : ℚ) : ℚ := (roundHalfEven (x * 10000) : ℚ) / 10000

/-- Python's `round(x, 3)`. -/
def round3 (x : ℚ) : ℚ := (roundHalfEven (x * 1000) : ℚ) / 1000

/-- `float(Web3.from_wei(w, "gwei"))`: wei to Gwei, dividing by 10^9. -/
def fromWei (w : ℤ) : ℚ := (w : ℚ) / 1000000000

/-- Python `sorted(values)` (ascending). -/
def sortAsc (values : List ℚ) : List ℚ := List.insertionSort (· ≤ ·) values

/-- The index computed by `pct`:
`int(round(q * (len(sorted_vals) - 1)))` after clamping `q` to `[0, 1]`. -/
def pctIdx (len : ℕ) (q : ℚ) : ℤ :=
  roundHalfEven (max 0 (min 1 q) * ((len : ℚ) - 1))

/-- `pct(values, q)`: approximate percentile `q` (0..1).  Returns `0.0` for an
empty list; otherwise clamps `q`, sorts, and indexes `sorted_vals[idx]`
(`getD` with default 0; the index is proved in bounds, see `c9_pct_total`). -/
def pct (values : List ℚ) (q : ℚ) : ℚ :=
  if values = [] then 0
  else (sortAsc values).getD (pctIdx values.length q).toNat 0

/-- Python `min(values)` of a non-empty list (0 on `[]`, never used there). -/
def listMin : List ℚ → ℚ
  | [] => 0
  | x :: xs => xs.foldl min x

/-- Python `max(values)` of a non-empty list (0 on `[]`, never used there). -/
def listMax : List ℚ → ℚ
  | [] => 0
  | x :: xs => xs.foldl max x

/-- `statistics.median(values)`: middle element of the sorted list for odd
length, mean of the two middle elements for even length. -/
def median (values : List ℚ) : ℚ :=
  if (sortAsc values).length % 2 = 1 then
    (sortAsc values).getD ((sortAsc values).length / 2) 0
  else
    ((sortAsc values).getD ((sortAsc values).length / 2 - 1) 0 +
      (sortAsc values).getD ((sortAsc values).length / 2) 0) / 2

/-- `stats_bucket(values)` (the closure inside `analyze_fees`). -/
def stats_bucket (values : List ℚ) : StatBucket :=
  if values = [] then ⟨0, 0, 0, 0, 0⟩
  else
    { p50 := round4 (median values)
      p95 := round4 (pct values 0.95)
      min := round4 (listMin values)
      max := round4 (listMax values)
      count := values.length }

/-- The body of the `for tx in block.transactions` loop of `sample_block_fees`,
processed front to back (the recursion preserves the source's append order). -/
def sampleLoop (bf : ℤ) : List Tx → List ℚ × List ℚ
  | [] => ([], [])
  | tx :: rest =>
    if tx.type = 2 then
      (fromWei (min tx.maxFeePerGas (bf + tx.maxPriorityFeePerGas)) :: (sampleLoop bf rest).1,
       fromWei tx.maxPriorityFeePerGas :: (sampleLoop bf rest).2)
    else
      (fromWei tx.gasPrice :: (sampleLoop bf rest).1,
       fromWei (max 0 (tx.gasPrice - bf)) :: (sampleLoop bf rest).2)

/-- `sample_block_fees(block, base_fee_wei)`: the `(effective_prices_gwei,
tip_gwei_approx)` lists.  `bf = base_fee_wei or 0` is the identity on
integers (`x or 0 == x` for `int` values) and is dropped. -/
def sample_block_fees (block : Block) (base_fee_wei : ℤ) : List ℚ × List ℚ :=
  sampleLoop base_fee_wei block.transactions

/-- `start_block = max(0, head - blocks + 1)`. -/
def start_block (head blocks : ℕ) : ℕ := (max 0 ((head : ℤ) - blocks + 1)).toNat

/-- The block numbers visited by `for n in range(head, start_block - 1, -step)`
(`step > 0`): `head, head - step, ...` while `n ≥ start_block`. -/
def walkNums (head sb step : ℕ) : List ℕ :=
  (List.range (if head < sb then 0 else (head - sb) / step + 1)).map
    (fun i => head - i * step)

/-- The fetch-and-accumulate loop of `analyze_fees`: for each visited block
number, `w3.eth.get_block(n, full_transactions=True)`; on failure the
exception (`FetchError n`) propagates and aborts.  Accumulates
`(basefees, eff_prices, tips)` in visit order. -/
def fetchLoop (gw : Gateway) : List ℕ → Except FetchError (List ℚ × List ℚ × List ℚ)
  | [] => .ok ([], [], [])
  | n :: rest =>
    match gw.getBlock n with
    | none => .error ⟨n⟩
    | some blk =>
      match fetchLoop gw rest with
      | .error e => .error e
      | .ok acc =>
        .ok (fromWei blk.baseFeePerGas :: acc.1,
             (sample_block_fees blk blk.baseFeePerGas).1 ++ acc.2.1,
             (sample_block_fees blk blk.baseFeePerGas).2 ++ acc.2.2)

/-- The `avg_block_time` computation: 0 if no block was sampled; otherwise
fetch the headers of `head` and `start_block` and take
`max(0, dt / max(1, head - start_block))`, with 0 on any fetch failure
(the `try/except` is non-fatal). -/
def avgBlockTime (gw : Gateway) (head sb sampled : ℕ) : ℚ :=
  if sampled = 0 then 0
  else
    match gw.getBlock head, gw.getBlock sb with
    | some newest, some oldest =>
      let dt : ℤ := newest.timestamp - oldest.timestamp
      let span_blocks : ℕ := max 1 (head - sb)
      max 0 ((dt : ℚ) / (span_blocks : ℚ))
    | _, _ => 0

/-- `analyze_fees(w3, blocks, step, head_override)`: resolve the head, walk the
range, compute the three stat buckets and the result dictionary.  The
wall-clock `timingSec` field is not modelled. -/
def analyze_fees (gw : Gateway) (blocks step : ℕ) (head_override : Option ℕ) :
    Except FetchError FeeProfileResult :=
  let head := head_override.getD gw.latestBlockNumber
  let sb := start_block head blocks
  let nums := walkNums head sb step
  match fetchLoop gw nums with
  | .error e => .error e
  | .ok (basefees, eff_prices, tips) =>
    .ok
      { chainId := gw.chainId
        network := network_name gw.chainId
        headBlock := head
        oldestBlock := sb
        blockSpan := blocks
        sampledBlocks := nums.length
        step := step
        avgBlockTimeSec := round3 (avgBlockTime gw head sb nums.length)
        baseFeeGwei := stats_bucket basefees
        effectivePriceGwei := stats_bucket eff_prices
        tipGweiApprox := stats_bucket tips }

/-! ### Concrete fixtures for witnesses -/

/-- A gateway whose every block is empty with base fee 0. -/
def gwW : Gateway :=
  { chainId := 1
    latestBlockNumber := 9
    getBlock := fun n =>
      some { number := n, baseFeePerGas := 0, timestamp := 0, transactions := [] } }

/-- The result of `analyze_fees gwW 1 1 (some 5)`. -/
def rW : FeeProfileResult :=
  { chainId := 1
    network := network_name 1
    headBlock := 5
    oldestBlock := start_block 5 1
    blockSpan := 1
    sampledBlocks := (walkNums 5 (start_block 5 1) 1).length
    step := 1
    avgBlockTimeSec :=
      round3 (avgBlockTime gwW 5 (start_block 5 1) (walkNums 5 (start_block 5 1) 1).length)
    baseFeeGwei := stats_bucket [fromWei 0]
    effectivePriceGwei := stats_bucket ((sample_block_fees
      { number := 5, baseFeePerGas := 0, timestamp := 0, transactions := [] } 0).1 ++ [])
    tipGweiApprox := stats_bucket ((sample_block_fees
      { number := 5, baseFeePerGas := 0, timestamp := 0, transactions := [] } 0).2 ++ []) }

/-- A gateway identical to `gwW` in block contents but with different chain
metadata. -/
def gwW2 : Gateway :=
  { chainId := 2, latestBlockNumber := 7, getBlock := gwW.getBlock }

/-- A gateway whose fetch of block 3 fails. -/
def gwF : Gateway :=
  { chainId := 1
    latestBlockNumber := 9
    getBlock := fun n =>
      if n = 3 then none
      else some { number := n, baseFeePerGas := 0, timestamp := 0, transactions := [] } }

/-- A type-2 transaction with a positive priority fee. -/
def txT : Tx :=
  { type := 2, gasPrice := 0, maxPriorityFeePerGas := 5, maxFeePerGas := 100 }

/-- A block carrying `txT` with base fee 10 wei. -/
def blkT : Block :=
  { number := 5, baseFeePerGas := 10, timestamp := 0, transactions := [txT] }

/-- A gateway whose every block is `blkT`. -/
def gwT : Gateway :=
  { chainId := 1, latestBlockNumber := 9, getBlock := fun _ => some blkT }

/-- The result of `analyze_fees gwT 1 1 (some 5)`. -/
def rT : FeeProfileResult :=
  { chainId := 1
    network := network_name 1
    headBlock := 5
    oldestBlock := start_block 5 1
    blockSpan := 1
    sampledBlocks := (walkNums 5 (start_block 5 1) 1).length
    step := 1
    avgBlockTimeSec :=
      round3 (avgBlockTime gwT 5 (start_block 5 1) (walkNums 5 (start_block 5 1) 1).length)
    baseFeeGwei := stats_bucket [fromWei 10]
    effectivePriceGwei := stats_bucket ((sample_block_fees blkT 10).1 ++ [])
    tipGweiApprox := stats_bucket ((sample_block_fees blkT 10).2 ++ []) }

/-! ### Rounding lemmas -/

theorem roundHalfEven_le (x : ℚ) : (roundHalfEven x : ℚ) ≤ x + 1/2 := by
  unfold roundHalfEven
  have h1 : (⌊x⌋ : ℚ) ≤ x := Int.floor_le x
  split_ifs with ha hb hc <;> push_cast <;> linarith

theorem le_roundHalfEven (x : ℚ) : x - 1/2 ≤ (roundHalfEven x : ℚ) := by
  unfold roundHalfEven
  have h2 : x < ⌊x⌋ + 1 := Int.lt_floor_add_one x
  split_ifs with ha hb hc <;> push_cast <;> linarith

theorem roundHalfEven_mono {x y : ℚ} (h : x ≤ y) :
    roundHalfEven x ≤ roundHalfEven y := by
  by_contra hlt
  push_neg at hlt
  have h1 := roundHalfEven_le x
  have h2 := le_roundHalfEven y
  have h3 : (roundHalfEven y : ℚ) + 1 ≤ (roundHalfEven x : ℚ) := by
    exact_mod_cast Int.add_one_le_iff.mpr hlt
  have hxy : x = y := le_antisymm h (by linarith)
  rw [hxy] at hlt
  exact lt_irrefl _ hlt

theorem roundHalfEven_nonneg {x : ℚ} (h : 0 ≤ x) : 0 ≤ roundHalfEven x := by
  have h1 := le_roundHalfEven x
  have h2 : (-1 : ℚ) < (roundHalfEven x : ℚ) := by linarith
  have h3 : (-1 : ℤ) < roundHalfEven x := by exact_mod_cast h2
  omega

theorem roundHalfEven_le_int {x : ℚ} {n : ℤ} (h : x ≤ (n : ℚ)) :
    roundHalfEven x ≤ n := by
  have h1 := roundHalfEven_le x
  have h2 : (roundHalfEven x : ℚ) < (n : ℚ) + 1 := by linarith
  have h3 : roundHalfEven x < n + 1 := by exact_mod_cast h2
  omega

theorem round4_mono {x y : ℚ} (h : x ≤ y) : round4 x ≤ round4 y := by
  unfold round4
  have h1 : x * 10000 ≤ y * 10000 := by linarith
  have h2 : (roundHalfEven (x * 10000) : ℚ) ≤ (roundHalfEven (y * 10000) : ℚ) := by
    exact_mod_cast roundHalfEven_mono h1
  linarith

theorem round4_nonneg {x : ℚ} (h : 0 ≤ x) : 0 ≤ round4 x := by
  unfold round4
  have h1 : (0 : ℤ) ≤ roundHalfEven (x * 10000) := roundHalfEven_nonneg (by linarith)
  have h2 : (0 : ℚ) ≤ (roundHalfEven (x * 10000) : ℚ) := by exact_mod_cast h1
  linarith

/-! ### List min/max lemmas -/

theorem foldl_min_le (l : List ℚ) (x : ℚ) :
    l.foldl min x ≤ x ∧ ∀ a ∈ l, l.foldl min x ≤ a := by
  induction l generalizing x with
  | nil => exact ⟨le_refl x, by simp⟩
  | cons y ys ih =>
    simp only [List.foldl_cons]
    refine ⟨le_trans (ih (min x y)).1 (min_le_left x y), ?_⟩
    intro a ha
    rcases List.mem_cons.mp ha with rfl | ha
    · exact le_trans (ih (min x a)).1 (min_le_right x a)
    · exact (ih (min x y)).2 a ha

theorem foldl_min_mem (l : List ℚ) (x : ℚ) : l.foldl min x ∈ x :: l := by
  induction l generalizing x with
  | nil => simp
  | cons y ys ih =>
    simp only [List.foldl_cons]
    rcases List.mem_cons.mp (ih (min x y)) with h | h
    · rw [h]
      rcases min_choice x y with hm | hm <;> rw [hm] <;> simp
    · simp [h]

theorem le_foldl_max (l : List ℚ) (x : ℚ) :
    x ≤ l.foldl max x ∧ ∀ a ∈ l, a ≤ l.foldl max x := by
  induction l generalizing x with
  | nil => exact ⟨le_refl x, by simp⟩
  | cons y ys ih =>
    simp only [List.foldl_cons]
    refine ⟨le_trans (le_max_left x y) (ih (max x y)).1, ?_⟩
    intro a ha
    rcases List.mem_cons.mp ha with rfl | ha
    · exact le_trans (le_max_right x a) (ih (max x a)).1
    · exact (ih (max x y)).2 a ha

theorem foldl_max_mem (l : List ℚ) (x : ℚ) : l.foldl max x ∈ x :: l := by
  induction l generalizing x with
  | nil => simp
  | cons y ys ih =>
    simp only [List.foldl_cons]
    rcases List.mem_cons.mp (ih (max x y)) with h | h
    · rw [h]
      rcases max_choice x y with hm | hm <;> rw [hm] <;> simp
    · simp [h]

theorem listMin_le {l : List ℚ} {a : ℚ} (ha : a ∈ l) : listMin l ≤ a := by
  cases l with
  | nil => cases ha
  | cons x xs =>
    rcases List.mem_cons.mp ha with rfl | h
    · exact (foldl_min_le xs a).1
    · exact (foldl_min_le xs x).2 a h

theorem listMin_mem {l : List ℚ} (h : l ≠ []) : listMin l ∈ l := by
  cases l with
  | nil => exact absurd rfl h
  | cons x xs => exact foldl_min_mem xs x

theorem le_listMax {l : List ℚ} {a : ℚ} (ha : a ∈ l) : a ≤ listMax l := by
  cases l with
  | nil => cases ha
  | cons x xs =>
    rcases List.mem_cons.mp ha with rfl | h
    · exact (le_foldl_max xs a).1
    · exact (le_foldl_max xs x).2 a h

/-! ### Sorting lemmas -/

theorem sortAsc_perm (l : List ℚ) : List.Perm (sortAsc l) l :=
  List.perm_insertionSort _ l

theorem sortAsc_length (l : List ℚ) : (sortAsc l).length = l.length :=
  List.length_insertionSort _ l

theorem sortAsc_sorted (l : List ℚ) : (sortAsc l).Sorted (· ≤ ·) :=
  List.sorted_insertionSort _ l

theorem sortAsc_mem {l : List ℚ} {a : ℚ} : a ∈ sortAsc l ↔ a ∈ l :=
  (sortAsc_perm l).mem_iff

theorem sortAsc_getD_mono (l : List ℚ) {i j : ℕ} (hij : i ≤ j)
    (hj : j < (sortAsc l).length) :
    (sortAsc l).getD i 0 ≤ (sortAsc l).getD j 0 := by
  have hi : i < (sortAsc l).length := lt_of_le_of_lt hij hj
  rw [List.getD_eq_get _ _ hi, List.getD_eq_get _ _ hj]
  exact (sortAsc_sorted l).rel_get_of_le (show (⟨i, hi⟩ : Fin _) ≤ ⟨j, hj⟩ from hij)

theorem sortAsc_getD_mem (l : List ℚ) {i : ℕ} (hi : i < (sortAsc l).length) :
    (sortAsc l).getD i 0 ∈ l := by
  rw [List.getD_eq_get _ _ hi]
  exact sortAsc_mem.mp (List.get_mem _ _ _)

/-! ### Percentile index bounds -/

theorem pctIdx_nonneg (len : ℕ) (q : ℚ) (h : 0 < len) : 0 ≤ pctIdx len q := by
  unfold pctIdx
  apply roundHalfEven_nonneg
  apply mul_nonneg (le_max_left 0 _)
  have h1 : (1 : ℚ) ≤ (len : ℚ) := by exact_mod_cast h
  linarith

theorem pctIdx_le (len : ℕ) (q : ℚ) (h : 0 < len) :
    pctIdx len q ≤ (len : ℤ) - 1 := by
  unfold pctIdx
  apply roundHalfEven_le_int
  have hq : max 0 (min 1 q) ≤ 1 := max_le (by norm_num) (min_le_left 1 q)
  have h1 : (1 : ℚ) ≤ (len : ℚ) := by exact_mod_cast h
  have hnn : (0 : ℚ) ≤ (len : ℚ) - 1 := by linarith
  push_cast
  calc max 0 (min 1 q) * ((len : ℚ) - 1)
      ≤ 1 * ((len : ℚ) - 1) := mul_le_mul_of_nonneg_right hq hnn
    _ = (len : ℚ) - 1 := one_mul _

theorem pctIdx_toNat_lt (len : ℕ) (q : ℚ) (h : 0 < len) :
    (pctIdx len q).toNat < len := by
  have h1 := pctIdx_le len q h
  omega

theorem pct_eq_getD (values : List ℚ) (q : ℚ) (h : values ≠ []) :
    pct values q = (sortAsc values).getD (pctIdx values.length q).toNat 0 := by
  unfold pct
  rw [if_neg h]

theorem pct_mem (values : List ℚ) (q : ℚ) (h : values ≠ []) :
    pct values q ∈ values := by
  rw [pct_eq_getD values q h]
  apply sortAsc_getD_mem
  rw [sortAsc_length]
  exact pctIdx_toNat_lt _ _ (List.length_pos.mpr h)

/-! ### Stat bucket lemmas -/

theorem fromWei_nonneg {w : ℤ} (h : 0 ≤ w) : 0 ≤ fromWei w := by
  unfold fromWei
  have h1 : (0 : ℚ) ≤ (w : ℚ) := by exact_mod_cast h
  positivity

theorem stats_bucket_count (values : List ℚ) :
    (stats_bucket values).count = values.length := by
  unfold stats_bucket
  split_ifs with h
  · rw [h]; rfl
  · rfl

theorem median_le_sorted_mid (values : List ℚ) (h : values ≠ []) :
    median values ≤ (sortAsc values).getD ((sortAsc values).length / 2) 0 := by
  unfold median
  split_ifs with hp
  · exact le_refl _
  · have hlen : 0 < (sortAsc values).length := by
      rw [sortAsc_length]; exact List.length_pos.mpr h
    have hdiv : (sortAsc values).length / 2 < (sortAsc values).length :=
      Nat.div_lt_self hlen (by norm_num)
    have hmono := sortAsc_getD_mono values (Nat.sub_le ((sortAsc values).length / 2) 1) hdiv
    linarith

theorem listMin_le_median (values : List ℚ) (h : values ≠ []) :
    listMin values ≤ median values := by
  have hlen : 0 < (sortAsc values).length := by
    rw [sortAsc_length]; exact List.length_pos.mpr h
  have hdiv : (sortAsc values).length / 2 < (sortAsc values).length :=
    Nat.div_lt_self hlen (by norm_num)
  have h1 : listMin values ≤ (sortAsc values).getD ((sortAsc values).length / 2) 0 :=
    listMin_le (sortAsc_getD_mem values hdiv)
  unfold median
  split_ifs with hp
  · exact h1
  · have hdiv1 : (sortAsc values).length / 2 - 1 < (sortAsc values).length :=
      lt_of_le_of_lt (Nat.sub_le _ _) hdiv
    have h2 : listMin values ≤ (sortAsc values).getD ((sortAsc values).length / 2 - 1) 0 :=
      listMin_le (sortAsc_getD_mem values hdiv1)
    linarith

theorem pctIdx95_ge (n : ℕ) (h : 0 < n) : n / 2 ≤ (pctIdx n 0.95).toNat := by
  have hclamp : max 0 (min 1 (0.95 : ℚ)) = 0.95 := by norm_num
  have hpe : pctIdx n 0.95 = roundHalfEven ((0.95 : ℚ) * ((n : ℚ) - 1)) := by
    simp only [pctIdx, hclamp]
  rcases Nat.lt_or_ge n 2 with h2 | h2
  · interval_cases n
    rw [hpe]
    norm_num [roundHalfEven]
  · have hn : (2 : ℚ) ≤ (n : ℚ) := by exact_mod_cast h2
    have hx : ((n : ℚ) / 2) - 1 < (0.95 : ℚ) * ((n : ℚ) - 1) - 1/2 := by linarith
    have hcast : ((n / 2 : ℕ) : ℚ) ≤ (n : ℚ) / 2 := Nat.cast_div_le
    have hrhe := le_roundHalfEven ((0.95 : ℚ) * ((n : ℚ) - 1))
    have hq : ((n / 2 : ℕ) : ℚ) - 1 <
        (roundHalfEven ((0.95 : ℚ) * ((n : ℚ) - 1)) : ℚ) := by linarith
    have hint : ((n / 2 : ℕ) : ℤ) - 1 < roundHalfEven ((0.95 : ℚ) * ((n : ℚ) - 1)) := by
      exact_mod_cast hq
    rw [hpe]
    omega

theorem median_le_pct95 (values : List ℚ) (h : values ≠ []) :
    median values ≤ pct values 0.95 := by
  have hpos : 0 < values.length := List.length_pos.mpr h
  have hslen : (sortAsc values).length = values.length := sortAsc_length values
  have hidxlt : (pctIdx values.length 0.95).toNat < (sortAsc values).length := by
    rw [hslen]; exact pctIdx_toNat_lt _ _ hpos
  have hge : (sortAsc values).length / 2 ≤ (pctIdx values.length 0.95).toNat := by
    rw [hslen]; exact pctIdx95_ge _ hpos
  have hmid := sortAsc_getD_mono values hge hidxlt
  rw [pct_eq_getD values _ h]
  exact le_trans (median_le_sorted_mid values h) hmid

/-! ### Sample/fetch loop lemmas -/

theorem sampleLoop_lengths (bf : ℤ) (txs : List Tx) :
    (sampleLoop bf txs).1.length = txs.length ∧
      (sampleLoop bf txs).2.length = txs.length := by
  induction txs with
  | nil => exact ⟨rfl, rfl⟩
  | cons tx rest ih =>
    by_cases h : tx.type = 2 <;> simp [sampleLoop, h, ih.1, ih.2]

theorem sampleLoop_tips_nonneg (bf : ℤ) (txs : List Tx)
    (htx : ∀ tx ∈ txs, 0 ≤ tx.maxPriorityFeePerGas) :
    ∀ x ∈ (sampleLoop bf txs).2, 0 ≤ x := by
  induction txs with
  | nil => intro x hx; cases hx
  | cons tx rest ih =>
    intro x hx
    have hrest : ∀ t ∈ rest, 0 ≤ t.maxPriorityFeePerGas := fun t ht =>
      htx t (List.mem_cons_of_mem tx ht)
    by_cases h : tx.type = 2
    · simp only [sampleLoop, if_pos h] at hx
      rcases List.mem_cons.mp hx with rfl | hx2
      · exact fromWei_nonneg (htx tx (List.mem_cons_self tx rest))
      · exact ih hrest x hx2
    · simp only [sampleLoop, if_neg h] at hx
      rcases List.mem_cons.mp hx with rfl | hx2
      · exact fromWei_nonneg (le_max_left 0 _)
      · exact ih hrest x hx2

theorem fetchLoop_ok_lengths (gw : Gateway) (nums : List ℕ)
    (acc : List ℚ × List ℚ × List ℚ) (h : fetchLoop gw nums = .ok acc) :
    acc.1.length = nums.length ∧ acc.2.1.length = acc.2.2.length := by
  induction nums generalizing acc with
  | nil =>
    simp only [fetchLoop, Except.ok.injEq] at h
    rw [← h]
    exact ⟨rfl, rfl⟩
  | cons n rest ih =>
    simp only [fetchLoop] at h
    cases hgb : gw.getBlock n with
    | none => rw [hgb] at h; cases h
    | some blk =>
      rw [hgb] at h
      cases hfl : fetchLoop gw rest with
      | error e => rw [hfl] at h; cases h
      | ok acc2 =>
        rw [hfl] at h
        simp only [Except.ok.injEq] at h
        obtain ⟨h1, h2⟩ := ih acc2 hfl
        have hs := sampleLoop_lengths blk.baseFeePerGas blk.transactions
        rw [← h]
        refine ⟨by simp [h1], ?_⟩
        simp only [List.length_append]
        unfold sample_block_fees
        rw [hs.1, hs.2, h2]

theorem fetchLoop_tips_nonneg (gw : Gateway) (nums : List ℕ)
    (acc : List ℚ × List ℚ × List ℚ) (h : fetchLoop gw nums = .ok acc)
    (hgw : ∀ (n : ℕ) (blk : Block), gw.getBlock n = some blk →
      ∀ tx ∈ blk.transactions, 0 ≤ tx.maxPriorityFeePerGas) :
    ∀ x ∈ acc.2.2, 0 ≤ x := by
  induction nums generalizing acc with
  | nil =>
    simp only [fetchLoop, Except.ok.injEq] at h
    rw [← h]
    intro x hx
    cases hx
  | cons n rest ih =>
    simp only [fetchLoop] at h
    cases hgb : gw.getBlock n with
    | none => rw [hgb] at h; cases h
    | some blk =>
      rw [hgb] at h
      cases hfl : fetchLoop gw rest with
      | error e => rw [hfl] at h; cases h
      | ok acc2 =>
        rw [hfl] at h
        simp only [Except.ok.injEq] at h
        rw [← h]
        intro x hx
        rcases List.mem_append.mp hx with hx1 | hx2
        · exact sampleLoop_tips_nonneg blk.baseFeePerGas blk.transactions
            (hgw n blk hgb) x hx1
        · exact ih acc2 hfl x hx2

theorem fetchLoop_error_of_none (gw : Gateway) (nums : List ℕ)
    (h : ∃ n ∈ nums, gw.getBlock n = none) :
    ∃ m ∈ nums, gw.getBlock m = none ∧ fetchLoop gw nums = .error ⟨m⟩ := by
  induction nums with
  | nil => obtain ⟨n, hn, _⟩ := h; cases hn
  | cons n rest ih =>
    cases hgb : gw.getBlock n with
    | none =>
      refine ⟨n, List.mem_cons_self n rest, hgb, ?_⟩
      simp only [fetchLoop, hgb]
    | some blk =>
      have hrest : ∃ m ∈ rest, gw.getBlock m = none := by
        obtain ⟨x, hx, hxn⟩ := h
        rcases List.mem_cons.mp hx with rfl | hx2
        · rw [hgb] at hxn; cases hxn
        · exact ⟨x, hx2, hxn⟩
      obtain ⟨m, hm, hnone, herr⟩ := ih hrest
      refine ⟨m, List.mem_cons_of_mem n hm, hnone, ?_⟩
      simp only [fetchLoop, hgb, herr]

/-! ### Walk and analyze lemmas -/

theorem start_block_le (head blocks : ℕ) (hb : 0 < blocks) :
    start_block head blocks ≤ head := by
  unfold start_block
  omega

theorem walkNums_length (head sb step : ℕ) (hle : sb ≤ head) :
    (walkNums head sb step).length = (head - sb) / step + 1 := by
  unfold walkNums
  rw [List.length_map, List.length_range, if_neg (Nat.not_lt.mpr hle)]

theorem walkNums_mem (head sb step : ℕ) (hle : sb ≤ head) :
    ∀ m ∈ walkNums head sb step, sb ≤ m ∧ m ≤ head := by
  intro m hm
  unfold walkNums at hm
  rw [if_neg (Nat.not_lt.mpr hle)] at hm
  simp only [List.mem_map, List.mem_range] at hm
  obtain ⟨i, hi, rfl⟩ := hm
  have h1 : i ≤ (head - sb) / step := Nat.lt_succ_iff.mp hi
  have h2 : i * step ≤ (head - sb) / step * step := Nat.mul_le_mul_right _ h1
  have h3 : (head - sb) / step * step ≤ head - sb := Nat.div_mul_le_self _ _
  omega

theorem analyze_fees_ok (gw : Gateway) (blocks step : ℕ) (ho : Option ℕ)
    (r : FeeProfileResult) (h : analyze_fees gw blocks step ho = .ok r) :
    ∃ acc : List ℚ × List ℚ × List ℚ,
      fetchLoop gw (walkNums (ho.getD gw.latestBlockNumber)
        (start_block (ho.getD gw.latestBlockNumber) blocks) step) = .ok acc ∧
      r = { chainId := gw.chainId
            network := network_name gw.chainId
            headBlock := ho.getD gw.latestBlockNumber
            oldestBlock := start_block (ho.getD gw.latestBlockNumber) blocks
            blockSpan := blocks
            sampledBlocks := (walkNums (ho.getD gw.latestBlockNumber)
              (start_block (ho.getD gw.latestBlockNumber) blocks) step).length
            step := step
            avgBlockTimeSec := round3 (avgBlockTime gw (ho.getD gw.latestBlockNumber)
              (start_block (ho.getD gw.latestBlockNumber) blocks)
              (walkNums (ho.getD gw.latestBlockNumber)
                (start_block (ho.getD gw.latestBlockNumber) blocks) step).length)
            baseFeeGwei := stats_bucket acc.1
            effectivePriceGwei := stats_bucket acc.2.1
            tipGweiApprox := stats_bucket acc.2.2 } := by
  simp only [analyze_fees] at h
  cases hfl : fetchLoop gw (walkNums (ho.getD gw.latestBlockNumber)
      (start_block (ho.getD gw.latestBlockNumber) blocks) step) with
  | error e => rw [hfl] at h; cases h
  | ok acc =>
    rw [hfl] at h
    simp only [Except.ok.injEq] at h
    exact ⟨acc, rfl, h.symm⟩

/-! ### Claim theorems -/

/-- C1: for every block with base fee `baseFeeWei` and every transaction in
it, the sampler derives the pair (effectivePriceGwei, tipGweiApprox) as:
type 2 → `effectiveWei = min(maxFeePerGas, baseFeeWei + maxPriorityFeePerGas)`
and `tipWei = maxPriorityFeePerGas`; otherwise `effectiveWei = gasPrice` and
`tipWei = max(0, gasPrice - baseFeeWei)`; both are converted to Gwei by
dividing by 10^9 and appended (in transaction order) to the effective-price
and tip collections. -/
theorem c1_per_tx_fee_derivation (block : Block) (baseFeeWei : ℤ) :
    (sample_block_fees block baseFeeWei).1 =
      block.transactions.map (fun tx =>
        if tx.type = 2 then
          ((min tx.maxFeePerGas (baseFeeWei + tx.maxPriorityFeePerGas) : ℤ) : ℚ) / 10 ^ 9
        else ((tx.gasPrice : ℤ) : ℚ) / 10 ^ 9) ∧
    (sample_block_fees block baseFeeWei).2 =
      block.transactions.map (fun tx =>
        if tx.type = 2 then ((tx.maxPriorityFeePerGas : ℤ) : ℚ) / 10 ^ 9
        else ((max 0 (tx.gasPrice - baseFeeWei) : ℤ) : ℚ) / 10 ^ 9) := by
  have hpow : ((10 : ℚ) ^ 9) = 1000000000 := by norm_num
  unfold sample_block_fees
  induction block.transactions with
  | nil => exact ⟨rfl, rfl⟩
  | cons tx rest ih =>
    by_cases h : tx.type = 2 <;>
      simp [sampleLoop, h, fromWei, ih.1, ih.2, hpow]

/-- C2: for every non-empty list and every q, `pct` clamps q to [0,1], sorts
ascending, and returns the element at zero-based index `round(q * (|V| - 1))`
of the sorted list; the returned value is an actual member of the input. -/
theorem c2_pct_nearest_rank (values : List ℚ) (q : ℚ) (h : values ≠ []) :
    pct values q =
      (List.insertionSort (· ≤ ·) values).getD
        (roundHalfEven (max 0 (min 1 q) * ((values.length : ℚ) - 1))).toNat 0 ∧
    pct values q ∈ values :=
  ⟨pct_eq_getD values q h, pct_mem values q h⟩

/-- C2 witness: concrete instantiation at `[3, 1, 2]`, `q = 1/2`. -/
theorem c2_pct_nearest_rank_witness :
    ([(3 : ℚ), 1, 2] ≠ []) ∧ pct [(3 : ℚ), 1, 2] (1/2) ∈ [(3 : ℚ), 1, 2] :=
  ⟨by simp, (c2_pct_nearest_rank [3, 1, 2] (1/2) (by simp)).2⟩

/-- C4: `stats_bucket` of an empty collection is all zeros; otherwise
`p50 = median`, `p95 = pct 0.95`, `min`/`max` the extrema, `count` the
length, with the four numeric fields rounded to 4 decimal places. -/
theorem c4_stats_bucket_fields (values : List ℚ) :
    (values = [] → stats_bucket values = ⟨0, 0, 0, 0, 0⟩) ∧
    (values ≠ [] →
      stats_bucket values =
        { p50 := round4 (median values)
          p95 := round4 (pct values 0.95)
          min := round4 (listMin values)
          max := round4 (listMax values)
          count := values.length }) := by
  constructor
  · intro h
    rw [h]
    rfl
  · intro h
    unfold stats_bucket
    rw [if_neg h]

/-- C4 witness: concrete instantiation at `[]` and `[2]`. -/
theorem c4_stats_bucket_fields_witness :
    stats_bucket ([] : List ℚ) = ⟨0, 0, 0, 0, 0⟩ ∧
      stats_bucket [(2 : ℚ)] =
        { p50 := round4 (median [(2 : ℚ)])
          p95 := round4 (pct [(2 : ℚ)] 0.95)
          min := round4 (listMin [(2 : ℚ)])
          max := round4 (listMax [(2 : ℚ)])
          count := [(2 : ℚ)].length } :=
  ⟨(c4_stats_bucket_fields []).1 rfl, (c4_stats_bucket_fields [(2 : ℚ)]).2 (by simp)⟩

/-- C5: the bucket's count equals the number of elements gathered, and for a
non-empty collection the rounded order statistics satisfy
`min ≤ p50 ≤ p95 ≤ max`. -/
theorem c5_bucket_order_statistics (values : List ℚ) :
    (stats_bucket values).count = values.length ∧
    (0 < (stats_bucket values).count →
      (stats_bucket values).min ≤ (stats_bucket values).p50 ∧
      (stats_bucket values).p50 ≤ (stats_bucket values).p95 ∧
      (stats_bucket values).p95 ≤ (stats_bucket values).max) := by
  refine ⟨stats_bucket_count values, ?_⟩
  intro hc
  rw [stats_bucket_count values] at hc
  have h : values ≠ [] := List.length_pos.mp hc
  unfold stats_bucket
  rw [if_neg h]
  refine ⟨round4_mono (listMin_le_median values h),
    round4_mono (median_le_pct95 values h),
    round4_mono (le_listMax (pct_mem values 0.95 h))⟩

/-- C5 witness: concrete instantiation at `[7, 3]`. -/
theorem c5_bucket_order_statistics_witness :
    (stats_bucket [(7 : ℚ), 3]).count = 2 ∧
      0 < (stats_bucket [(7 : ℚ), 3]).count ∧
      ((stats_bucket [(7 : ℚ), 3]).min ≤ (stats_bucket [(7 : ℚ), 3]).p50 ∧
        (stats_bucket [(7 : ℚ), 3]).p50 ≤ (stats_bucket [(7 : ℚ), 3]).p95 ∧
        (stats_bucket [(7 : ℚ), 3]).p95 ≤ (stats_bucket [(7 : ℚ), 3]).max) :=
  ⟨(c5_bucket_order_statistics [(7 : ℚ), 3]).1, by decide,
    (c5_bucket_order_statistics [(7 : ℚ), 3]).2 (by decide)⟩

/-- C9: `pct` is total: on the empty list it returns 0 for every q, and for
non-empty input the computed index is nonnegative and within the bounds of
the sorted list, so the indexing never goes out of range. -/
theorem c9_pct_total :
    (∀ q : ℚ, pct [] q = 0) ∧
    ∀ (values : List ℚ) (q : ℚ), values ≠ [] →
      0 ≤ pctIdx values.length q ∧
        (pctIdx values.length q).toNat < (sortAsc values).length := by
  constructor
  · intro q
    rfl
  · intro values q h
    have hpos : 0 < values.length := List.length_pos.mpr h
    refine ⟨pctIdx_nonneg _ _ hpos, ?_⟩
    rw [sortAsc_length]
    exact pctIdx_toNat_lt _ _ hpos

/-- C9 witness: concrete instantiation at `[]` and `[5, 7]`, `q = 3/4`. -/
theorem c9_pct_total_witness :
    pct [] (3/4 : ℚ) = 0 ∧
      (0 ≤ pctIdx [(5 : ℚ), 7].length (3/4) ∧
        (pctIdx [(5 : ℚ), 7].length (3/4)).toNat < (sortAsc [(5 : ℚ), 7]).length) :=
  ⟨c9_pct_total.1 (3/4), c9_pct_total.2 [(5 : ℚ), 7] (3/4) (by simp)⟩

/-- C3: for positive `blocks` and `step`, a successful run resolves
`startBlock = max(0, head - blocks + 1)`, visits the walk from `head` down to
`startBlock` by `step` (every visited number lies in `[startBlock, head]`),
reports `sampledBlocks` equal to the number of blocks visited, which is at
most `ceil((head - startBlock + 1) / step)`; with `blocks = 1` and
`step = 1` exactly one block is visited and `headBlock = oldestBlock = head`,
`sampledBlocks = 1`. -/
theorem c3_walk_range (gw : Gateway) (blocks step : ℕ) (ho : Option ℕ)
    (head : ℕ) (hh : head = ho.getD gw.latestBlockNumber) (hb : 0 < blocks)
    (hs : 0 < step) (r : FeeProfileResult)
    (h : analyze_fees gw blocks step ho = .ok r) :
    r.headBlock = head ∧
    r.oldestBlock = (max 0 ((head : ℤ) - blocks + 1)).toNat ∧
    r.sampledBlocks = (walkNums head (start_block head blocks) step).length ∧
    r.sampledBlocks ≤ (head - start_block head blocks + 1 + step - 1) / step ∧
    (∀ m ∈ walkNums head (start_block head blocks) step,
      start_block head blocks ≤ m ∧ m ≤ head) ∧
    (blocks = 1 ∧ step = 1 →
      r.sampledBlocks = 1 ∧ r.headBlock = head ∧ r.oldestBlock = head) := by
  obtain ⟨acc, hfl, hr⟩ := analyze_fees_ok gw blocks step ho r h
  rw [← hh] at hr
  subst hr
  have hsble : start_block head blocks ≤ head := start_block_le head blocks hb
  have hwl := walkNums_length head (start_block head blocks) step hsble
  refine ⟨rfl, rfl, rfl, ?_, walkNums_mem head _ step hsble, ?_⟩
  · show (walkNums head (start_block head blocks) step).length ≤ _
    have ha : head - start_block head blocks + 1 + step - 1 =
        head - start_block head blocks + step := by omega
    rw [hwl, ha, Nat.add_div_right _ hs]
  · rintro ⟨hb1, hs1⟩
    subst hb1
    subst hs1
    have hsb : start_block head 1 = head := by
      unfold start_block
      omega
    refine ⟨?_, rfl, hsb⟩
    show (walkNums head (start_block head 1) 1).length = 1
    rw [walkNums_length head _ 1 (start_block_le head 1 Nat.one_pos), hsb]
    omega

/-- C6: if any block fetch during the walk fails, the whole run aborts with a
`FetchError` naming a failed block number, and no `.ok` result is produced. -/
theorem c6_fetch_failure_aborts (gw : Gateway) (blocks step : ℕ) (ho : Option ℕ)
    (h : ∃ n ∈ walkNums (ho.getD gw.latestBlockNumber)
        (start_block (ho.getD gw.latestBlockNumber) blocks) step,
        gw.getBlock n = none) :
    ∃ m ∈ walkNums (ho.getD gw.latestBlockNumber)
        (start_block (ho.getD gw.latestBlockNumber) blocks) step,
      gw.getBlock m = none ∧
        analyze_fees gw blocks step ho = .error ⟨m⟩ ∧
        ∀ r : FeeProfileResult, analyze_fees gw blocks step ho ≠ .ok r := by
  obtain ⟨m, hm, hnone, herr⟩ := fetchLoop_error_of_none gw _ h
  have hres : analyze_fees gw blocks step ho = .error ⟨m⟩ := by
    simp only [analyze_fees, herr]
  refine ⟨m, hm, hnone, hres, ?_⟩
  intro r hr
  rw [hres] at hr
  cases hr

/-- C7: with a fixed explicit head and two gateways returning identical block
contents, the three stat buckets of the two runs coincide: they depend only
on the fetched block data, not on the gateway's other observable state. -/
theorem c7_deterministic_buckets (gw1 gw2 : Gateway) (blocks step head : ℕ)
    (hgb : ∀ n, gw1.getBlock n = gw2.getBlock n) :
    Except.map
        (fun r : FeeProfileResult => (r.baseFeeGwei, r.effectivePriceGwei, r.tipGweiApprox))
        (analyze_fees gw1 blocks step (some head)) =
      Except.map
        (fun r : FeeProfileResult => (r.baseFeeGwei, r.effectivePriceGwei, r.tipGweiApprox))
        (analyze_fees gw2 blocks step (some head)) := by
  have hfl : ∀ nums, fetchLoop gw1 nums = fetchLoop gw2 nums := by
    intro nums
    induction nums with
    | nil => rfl
    | cons n rest ih => simp only [fetchLoop, hgb n, ih]
  simp only [analyze_fees, Option.getD_some]
  rw [hfl]
  cases hf2 : fetchLoop gw2 (walkNums head (start_block head blocks) step) with
  | error e => rfl
  | ok acc => rfl

/-- C8: after every successful run, the base-fee bucket's count equals
`sampledBlocks` (one base-fee sample per visited block), and the
effective-price bucket's count equals the tip bucket's count (one entry in
each collection per transaction). -/
theorem c8_count_invariants (gw : Gateway) (blocks step : ℕ) (ho : Option ℕ)
    (r : FeeProfileResult) (h : analyze_fees gw blocks step ho = .ok r) :
    r.baseFeeGwei.count = r.sampledBlocks ∧
    r.effectivePriceGwei.count = r.tipGweiApprox.count := by
  obtain ⟨acc, hfl, hr⟩ := analyze_fees_ok gw blocks step ho r h
  obtain ⟨h1, h2⟩ := fetchLoop_ok_lengths gw _ acc hfl
  subst hr
  constructor
  · show (stats_bucket acc.1).count = _
    rw [stats_bucket_count, h1]
  · show (stats_bucket acc.2.1).count = (stats_bucket acc.2.2).count
    rw [stats_bucket_count, stats_bucket_count, h2]

/-- C10: every value appended to the tip collection is nonnegative (legacy
tips are clamped by `max(0, ·)`, type-2 tips equal the nonnegative
`maxPriorityFeePerGas`), so whenever the tip bucket has a positive count its
`min` field is nonnegative. -/
theorem c10_tip_nonneg (gw : Gateway) (blocks step : ℕ) (ho : Option ℕ)
    (r : FeeProfileResult)
    (hgw : ∀ (n : ℕ) (blk : Block), gw.getBlock n = some blk →
      ∀ tx ∈ blk.transactions, 0 ≤ tx.maxPriorityFeePerGas)
    (h : analyze_fees gw blocks step ho = .ok r) :
    (∀ (blk : Block) (bf : ℤ),
      (∀ tx ∈ blk.transactions, 0 ≤ tx.maxPriorityFeePerGas) →
      ∀ x ∈ (sample_block_fees blk bf).2, 0 ≤ x) ∧
    (0 < r.tipGweiApprox.count → 0 ≤ r.tipGweiApprox.min) := by
  refine ⟨fun blk bf htx => sampleLoop_tips_nonneg bf blk.transactions htx, ?_⟩
  obtain ⟨acc, hfl, hr⟩ := analyze_fees_ok gw blocks step ho r h
  subst hr
  intro hc
  have hc2 : 0 < acc.2.2.length := by
    rw [← stats_bucket_count]
    exact hc
  have hne : acc.2.2 ≠ [] := List.length_pos.mp hc2
  have hnn : ∀ x ∈ acc.2.2, 0 ≤ x := fetchLoop_tips_nonneg gw _ acc hfl hgw
  show 0 ≤ (stats_bucket acc.2.2).min
  unfold stats_bucket
  rw [if_neg hne]
  exact round4_nonneg (hnn _ (listMin_mem hne))

/-- C3 witness: with `gwW`, `blocks = 1`, `step = 1`, `head = 5`, exactly one
block is visited and head and oldest coincide. -/
theorem c3_walk_range_witness :
    rW.sampledBlocks = 1 ∧ rW.headBlock = 5 ∧ rW.oldestBlock = 5 :=
  (c3_walk_range gwW 1 1 (some 5) 5 rfl Nat.one_pos Nat.one_pos rW rfl).2.2.2.2.2
    ⟨rfl, rfl⟩

/-- C6 witness: `gwF` fails on block 3, which the walk from 5 with step 2
visits, so the run aborts with that block's `FetchError`. -/
theorem c6_fetch_failure_aborts_witness :
    ∃ m ∈ walkNums ((some 5).getD gwF.latestBlockNumber)
        (start_block ((some 5).getD gwF.latestBlockNumber) 5) 2,
      gwF.getBlock m = none ∧ analyze_fees gwF 5 2 (some 5) = .error ⟨m⟩ := by
  obtain ⟨m, hm, hnone, herr, hok⟩ :=
    c6_fetch_failure_aborts gwF 5 2 (some 5) (by decide)
  exact ⟨m, hm, hnone, herr⟩

/-- C7 witness: `gwW` and `gwW2` differ in chain metadata but agree on block
contents; the bucket triples coincide. -/
theorem c7_deterministic_buckets_witness :
    Except.map
        (fun r : FeeProfileResult => (r.baseFeeGwei, r.effectivePriceGwei, r.tipGweiApprox))
        (analyze_fees gwW 1 1 (some 5)) =
      Except.map
        (fun r : FeeProfileResult => (r.baseFeeGwei, r.effectivePriceGwei, r.tipGweiApprox))
        (analyze_fees gwW2 1 1 (some 5)) :=
  c7_deterministic_buckets gwW gwW2 1 1 5 (fun _ => rfl)

/-- C8 witness: concrete successful run of `gwW`. -/
theorem c8_count_invariants_witness :
    rW.baseFeeGwei.count = rW.sampledBlocks ∧
    rW.effectivePriceGwei.count = rW.tipGweiApprox.count :=
  c8_count_invariants gwW 1 1 (some 5) rW rfl

/-- C10 witness: concrete run of `gwT` whose single transaction has a
positive priority fee. -/
theorem c10_tip_nonneg_witness :
    0 < rT.tipGweiApprox.count ∧ 0 ≤ rT.tipGweiApprox.min :=
  ⟨by decide,
    (c10_tip_nonneg gwT 1 1 (some 5) rT
      (by
        intro n blk hb
        simp only [gwT, Option.some.injEq] at hb
        subst hb
        intro tx htx
        simp only [blkT, List.mem_singleton] at htx
        subst htx
        decide)
      rfl).2 (by decide)⟩

end ZkFee
